import Mathlib

/-!
Verification of the hybrid search and ranking-fusion engine of the
`info_agent` repository.

The embedding models the ranking module (`info_agent/core/ranking.py`) and the
search orchestration of the repository layer (`info_agent/core/repository.py`)
as pure Lean functions.  Python floats are modelled as exact rationals (`ℚ`),
Python dicts (which iterate in insertion order) as association lists,
Python sets as insertion-ordered duplicate-free lists, and raising code as
`Except String`.  Python's stable `sorted(..., reverse=True)` is modelled by a
stable insertion sort.
-/

set_option linter.unusedVariables false

/-- Memory record (`info_agent/core/models.py`, class `Memory`); only the
fields read by the ranking core are modelled. -/
structure Memory where
  id : Nat
  title : String := ""
  content : String := ""
deriving Repr, DecidableEq

/-- Search result (`info_agent/core/models.py`, class `MemorySearchResult`).
`ranking_explanation` models the attribute set dynamically by
`rank_search_results`. -/
structure MemorySearchResult where
  memory : Memory
  relevance_score : ℚ := 0
  match_type : String := "unknown"
  ranking_explanation : String := ""
deriving Repr, DecidableEq

/-- Source configuration (`ranking.py`, dataclass `SearchSource`); the unread
`preferred_for` field is omitted. -/
structure SearchSource where
  name : String
  weight : ℚ := 1
  reliability : ℚ := 1
deriving Repr, DecidableEq

/-- Detailed ranking metrics (`ranking.py`, dataclass `RankingMetrics`). -/
structure RankingMetrics where
  rrf_score : ℚ
  original_score : ℚ
  confidence : ℚ
  source_diversity : ℚ
  rank_in_source : Nat
  explanation : String
  contributing_sources : List String
deriving Repr, DecidableEq

/-- Association-list lookup, modelling Python `dict.get` /  `d[k]`. -/
def alistGet? {κ β : Type} [DecidableEq κ] : List (κ × β) → κ → Option β
  | [], _ => none
  | (k', v) :: rest, k => if k' = k then some v else alistGet? rest k

/-- Association-list update, modelling Python `d[k] = v` (updates in place,
appends a new binding at the end when the key is fresh). -/
def alistSet {κ β : Type} [DecidableEq κ] : List (κ × β) → κ → β → List (κ × β)
  | [], k, v => [(k, v)]
  | (k', v') :: rest, k, v =>
    if k' = k then (k', v) :: rest else (k', v') :: alistSet rest k v

/-- Modelling `defaultdict(float); d[k] += c`. -/
def alistAddQ {κ : Type} [DecidableEq κ] : List (κ × ℚ) → κ → ℚ → List (κ × ℚ)
  | [], k, c => [(k, c)]
  | (k', v) :: rest, k, c =>
    if k' = k then (k', v + c) :: rest else (k', v) :: alistAddQ rest k c

/-- Modelling `defaultdict(int); d[k] += 1`. -/
def alistAddN {κ : Type} [DecidableEq κ] : List (κ × Nat) → κ → List (κ × Nat)
  | [], k => [(k, 1)]
  | (k', v) :: rest, k =>
    if k' = k then (k', v + 1) :: rest else (k', v) :: alistAddN rest k

/-- Insertion step of the stable descending sort. -/
def insertDesc {α : Type} (key : α → ℚ) (x : α) : List α → List α
  | [] => [x]
  | y :: ys => if key y < key x then x :: y :: ys else y :: insertDesc key x ys

/-- Stable sort, descending by `key`; models Python
`sorted(..., key=..., reverse=True)` (equal keys keep their input order). -/
def sortDesc {α : Type} (key : α → ℚ) (l : List α) : List α :=
  l.foldl (fun acc x => insertDesc key x acc) []

/-- Python string comparison: lexicographic on code points. -/
def charListLt : List Char → List Char → Bool
  | [], [] => false
  | [], _ :: _ => true
  | _ :: _, [] => false
  | a :: as, b :: bs =>
    if a.toNat < b.toNat then true
    else if b.toNat < a.toNat then false
    else charListLt as bs

/-- Insertion step of the stable ascending string sort. -/
def insertStr (x : String) : List String → List String
  | [] => [x]
  | y :: ys => if charListLt x.data y.data then x :: y :: ys else y :: insertStr x ys

/-- Python `sorted(strings)`. -/
def sortStrings (l : List String) : List String :=
  l.foldl (fun acc x => insertStr x acc) []

/-- ASCII lowercasing of one character (Python `str.lower` restricted to the
ASCII range actually exercised by the repository). -/
def charLower (c : Char) : Char :=
  match c with
  | 'A' => 'a' | 'B' => 'b' | 'C' => 'c' | 'D' => 'd' | 'E' => 'e' | 'F' => 'f'
  | 'G' => 'g' | 'H' => 'h' | 'I' => 'i' | 'J' => 'j' | 'K' => 'k' | 'L' => 'l'
  | 'M' => 'm' | 'N' => 'n' | 'O' => 'o' | 'P' => 'p' | 'Q' => 'q' | 'R' => 'r'
  | 'S' => 's' | 'T' => 't' | 'U' => 'u' | 'V' => 'v' | 'W' => 'w' | 'X' => 'x'
  | 'Y' => 'y' | 'Z' => 'z'
  | other => other

/-- Python `str.lower`. -/
def strLower (s : String) : String := String.mk (s.data.map charLower)

/-- Whitespace test used by Python `str.strip`. -/
def isPySpace (c : Char) : Bool :=
  c = ' ' ∨ c = '\t' ∨ c = '\n' ∨ c = '\x0d' ∨ c = '\x0b' ∨ c = '\x0c'

/-- Python `str.strip`: drop whitespace from both ends. -/
def strStrip (s : String) : String :=
  String.mk (((s.data.dropWhile isPySpace).reverse.dropWhile isPySpace).reverse)

/-- Python slicing `s[:n]` (by code point). -/
def strTake (s : String) (n : Nat) : String := String.mk (s.data.take n)

/-- Decimal rendering of a non-negative rational with a fixed number of
digits, modelling the Python f-string `{q:.Nf}` used in log and explanation
strings (never load-bearing for any ranking decision). -/
def fmtQ (digits : Nat) (q : ℚ) : String :=
  let n := (Int.floor (q * 10 ^ digits + 1/2)).toNat
  let intPart := n / 10 ^ digits
  let fracPart := n % 10 ^ digits
  let fracStr := toString fracPart
  toString intPart ++ "." ++ String.mk (List.replicate (digits - fracStr.length) '0') ++ fracStr

/-- Static source configurations (`EnhancedRanker.SEARCH_SOURCES`). -/
def SEARCH_SOURCES : List (String × SearchSource) :=
  [("structured", { name := "structured", weight := 1, reliability := 95/100 }),
   ("semantic", { name := "semantic", weight := 12/10, reliability := 85/100 }),
   ("hybrid", { name := "hybrid", weight := 11/10, reliability := 90/100 })]

/-- RRF parameter (`EnhancedRanker.RRF_K`). -/
def RRF_K : Nat := 60

/-- Configuration lookup with permissive default,
`self.SEARCH_SOURCES.get(source_name, SearchSource(source_name))`. -/
def sourceConfig (name : String) : SearchSource :=
  (alistGet? SEARCH_SOURCES name).getD { name := name }

/-- Weight resolution inside the fusion loop:
`source_weights.get(source_name, self.SEARCH_SOURCES.get(source_name, SearchSource(source_name)).weight)`. -/
def resolveWeight (source_weights : List (String × ℚ)) (name : String) : ℚ :=
  (alistGet? source_weights name).getD (sourceConfig name).weight

/-- Python `k = k or self.RRF_K` (both `None` and `0` fall back to 60). -/
def effectiveK : Option Nat → Nat
  | none => RRF_K
  | some k => if k = 0 then RRF_K else k

/-- Per-memory bookkeeping of the fusion loop (the `memory_data[id]` dict). -/
structure MemoryData where
  result : MemorySearchResult
  original_scores : List (String × ℚ)
  ranks_in_sources : List (String × Nat)
  sources : List String
deriving Repr, DecidableEq

/-- Python `set.add` on the insertion-ordered model of a set. -/
def addSource (sources : List String) (s : String) : List String :=
  if s ∈ sources then sources else sources ++ [s]

/-- Accumulator of the fusion loop: `rrf_scores` and `memory_data`. -/
structure FusionState where
  rrf_scores : List (Nat × ℚ)
  memory_data : List (Nat × MemoryData)
deriving Repr, DecidableEq

/-- Body of the inner fusion loop (`for rank, result in enumerate(results, 1)`). -/
def processResult (source_name : String) (source_weight : ℚ) (k : Nat)
    (st : FusionState) (rank : Nat) (result : MemorySearchResult) : FusionState :=
  let memory_id := result.memory.id
  let rrf_contribution := source_weight / ((k + rank : Nat) : ℚ)
  let rrf_scores := alistAddQ st.rrf_scores memory_id rrf_contribution
  let data0 := (alistGet? st.memory_data memory_id).getD
    { result := result, original_scores := [], ranks_in_sources := [], sources := [] }
  let data1 := { data0 with
    original_scores := alistSet data0.original_scores source_name result.relevance_score,
    ranks_in_sources := alistSet data0.ranks_in_sources source_name rank,
    sources := addSource data0.sources source_name }
  { rrf_scores := rrf_scores, memory_data := alistSet st.memory_data memory_id data1 }

/-- Inner fusion loop over one source's ranked result list. -/
def processSource (source_name : String) (source_weight : ℚ) (k : Nat) :
    FusionState → Nat → List MemorySearchResult → FusionState
  | st, _, [] => st
  | st, rank, r :: rs =>
    processSource source_name source_weight k
      (processResult source_name source_weight k st rank r) (rank + 1) rs

/-- Outer fusion loop (`for source_name, results in source_results.items()`). -/
def processSources (source_weights : List (String × ℚ)) (k : Nat) :
    FusionState → List (String × List MemorySearchResult) → FusionState
  | st, [] => st
  | st, p :: rest =>
    processSources source_weights k
      (processSource p.1 (resolveWeight source_weights p.1) k st 1 p.2) rest

/-- Minimum of the recorded ranks, `min(data['ranks_in_sources'].values())`. -/
def minRank : List (String × Nat) → Nat
  | [] => 0
  | p :: rest => rest.foldl (fun m q => Nat.min m q.2) p.2

/-- Maximum of the recorded scores,
`max(data['original_scores'].values()) if data['original_scores'] else 0.0`. -/
def maxScore : List (String × ℚ) → ℚ
  | [] => 0
  | p :: rest => rest.foldl (fun m q => max m q.2) p.2

/-- Confidence scoring (`EnhancedRanker._calculate_confidence`). -/
def calculate_confidence (sources : List String) (original_scores : List (String × ℚ))
    (ranks : List (String × Nat)) : ℚ :=
  let source_confidence := min ((sources.length : ℚ) / (SEARCH_SOURCES.length : ℚ)) 1
  let score_consistency :=
    if 1 < original_scores.length then
      let scores := original_scores.map (fun p => p.2)
      let mean_score := scores.sum / (scores.length : ℚ)
      let variance := (scores.map (fun s => (s - mean_score) ^ 2)).sum / (scores.length : ℚ)
      max 0 (1 - variance)
    else if original_scores.isEmpty then 1/2 else 1
  let rank_confidence :=
    if ranks.isEmpty then 1
    else
      let avg_rank := (ranks.map (fun p => (p.2 : ℚ))).sum / (ranks.length : ℚ)
      max (1/10) (1 - (avg_rank - 1) * (1/10))
  let reliability_weight := (sources.map (fun s => (sourceConfig s).reliability)).sum
  let total_weight : ℚ := (sources.length : ℚ)
  let avg_reliability := reliability_weight / max total_weight 1
  max 0 (min 1 (source_confidence * (3/10) + score_consistency * (3/10) +
    rank_confidence * (2/10) + avg_reliability * (2/10)))

/-- Construction of one emitted `(result, metrics)` pair of the fusion loop,
including the in-place overwrite of `relevance_score` and `match_type` on the
stored result object. -/
def mkFusedEntry (num_sources : Nat) (memory_data : List (Nat × MemoryData))
    (entry : Nat × ℚ) : Option (MemorySearchResult × RankingMetrics) :=
  (alistGet? memory_data entry.1).map (fun data =>
    let confidence := calculate_confidence data.sources data.original_scores data.ranks_in_sources
    let source_diversity : ℚ := (data.sources.length : ℚ) / (num_sources : ℚ)
    let best_rank := minRank data.ranks_in_sources
    let best_score := maxScore data.original_scores
    let source_list := sortStrings data.sources
    let explanation :=
      "Found in " ++ toString source_list.length ++ " sources: " ++
        String.intercalate ", " source_list ++ ". RRF score: " ++ fmtQ 4 entry.2
    let metrics : RankingMetrics :=
      { rrf_score := entry.2, original_score := best_score, confidence := confidence,
        source_diversity := source_diversity, rank_in_source := best_rank,
        explanation := explanation, contributing_sources := source_list }
    let result := { data.result with
      relevance_score := entry.2,
      match_type :=
        if 1 < data.sources.length then "rrf_fused" else "rrf_" ++ data.sources.headD "" }
    (result, metrics))

/-- Weighted Reciprocal Rank Fusion (`EnhancedRanker.reciprocal_rank_fusion`). -/
def reciprocal_rank_fusion (source_results : List (String × List MemorySearchResult))
    (source_weights : List (String × ℚ)) (k? : Option Nat) :
    List (MemorySearchResult × RankingMetrics) :=
  let k := effectiveK k?
  let st := processSources source_weights k ⟨[], []⟩ source_results
  (sortDesc (fun p => p.2) st.rrf_scores).filterMap (mkFusedEntry source_results.length st.memory_data)

/-- Threshold filtering (`EnhancedRanker.apply_threshold_filter`). -/
def apply_threshold_filter :
    List (MemorySearchResult × RankingMetrics) → ℚ → List (MemorySearchResult × RankingMetrics)
  | [], _ => []
  | rm :: rest, threshold =>
    if threshold ≤ rm.2.rrf_score then rm :: apply_threshold_filter rest threshold
    else apply_threshold_filter rest threshold

/-- Content signature for deduplication,
`result.memory.content[:100].strip().lower()`. -/
def contentSignature (content : String) : String :=
  strLower (strStrip (strTake content 100))

/-- Diversity penalty multiplier: one factor `0.95` per contributing source
already holding more than `max_results // 3` accepted results. -/
def diversityBonus (contributing_sources : List String) (source_counts : List (String × Nat))
    (max_results : Nat) : ℚ :=
  contributing_sources.foldl
    (fun bonus s =>
      if max_results / 3 < (alistGet? source_counts s).getD 0 then bonus * (95/100) else bonus)
    1

/-- Per-source count update after accepting a result. -/
def bumpCounts (source_counts : List (String × Nat)) (contributing_sources : List String) :
    List (String × Nat) :=
  contributing_sources.foldl (fun c s => alistAddN c s) source_counts

/-- Walk of `deduplicate_and_diversify`: skip seen content signatures, apply
the diversity penalty, stop once `max_results` entries are accepted. -/
def diversifyWalk (max_results : Nat) :
    List (MemorySearchResult × RankingMetrics) → List String → List (String × Nat) →
    List (MemorySearchResult × RankingMetrics) → List (MemorySearchResult × RankingMetrics)
  | [], _, _, acc => acc.reverse
  | rm :: rest, seen_contents, source_counts, acc =>
    let content_signature := contentSignature rm.1.memory.content
    if content_signature ∈ seen_contents then
      diversifyWalk max_results rest seen_contents source_counts acc
    else
      let bonus := diversityBonus rm.2.contributing_sources source_counts max_results
      let result := { rm.1 with relevance_score := rm.1.relevance_score * bonus }
      let acc' := (result, rm.2) :: acc
      if max_results ≤ acc'.length then acc'.reverse
      else
        diversifyWalk max_results rest (content_signature :: seen_contents)
          (bumpCounts source_counts rm.2.contributing_sources) acc'

/-- Deduplication and diversification (`EnhancedRanker.deduplicate_and_diversify`). -/
def deduplicate_and_diversify (results : List (MemorySearchResult × RankingMetrics))
    (max_results : Nat) : List (MemorySearchResult × RankingMetrics) :=
  if results.length ≤ max_results then results
  else
    (sortDesc (fun rm => rm.1.relevance_score) (diversifyWalk max_results results [] [] [])).take
      max_results

/-- Step 1 of `rank_search_results`: standard per-source weights. -/
def source_weights_for (source_results : List (String × List MemorySearchResult)) :
    List (String × ℚ) :=
  source_results.map (fun p => (p.1, (sourceConfig p.1).weight))

/-- Steps 2 to 4 of `rank_search_results`: fusion, threshold filter,
deduplication. -/
def fused_pipeline (source_results : List (String × List MemorySearchResult))
    (max_results : Nat) : List (MemorySearchResult × RankingMetrics) :=
  deduplicate_and_diversify
    (apply_threshold_filter
      (reciprocal_rank_fusion source_results (source_weights_for source_results) none)
      (1/100))
    max_results

/-- The ranking explanation attached to each final result in step 5 of
`rank_search_results`. -/
def mkRankingExplanation (metrics : RankingMetrics) : String :=
  "RRF Score: " ++ fmtQ 3 metrics.rrf_score ++ " | Confidence: " ++ fmtQ 2 metrics.confidence ++
    " | Sources: " ++ String.intercalate ", " metrics.contributing_sources

/-- Complete ranking pipeline (`EnhancedRanker.rank_search_results`). -/
def rank_search_results (source_results : List (String × List MemorySearchResult))
    (query : String) (max_results : Nat) : List MemorySearchResult :=
  (fused_pipeline source_results max_results).map
    (fun rm => { rm.1 with ranking_explanation := mkRankingExplanation rm.2 })

/-- The two retrieval providers behind the repository, as black boxes that
either return a ranked list or raise (`Except.error`): `db.search_memories_fts`
and `vector_store.search_memories`. -/
structure ProviderEnv where
  fts_search : String → Nat → Except String (List MemorySearchResult)
  vector_search : String → Nat → Except String (List MemorySearchResult)

/-- Full-text search wrapper (`SQLiteMemoryRepository.search`): re-raises any
provider failure as a `RepositoryError`. -/
def repo_search (env : ProviderEnv) (query : String) (limit : Nat) :
    Except String (List MemorySearchResult) :=
  match env.fts_search query limit with
  | Except.ok results => Except.ok results
  | Except.error e => Except.error ("Search operation failed: " ++ e)

/-- Semantic search wrapper (`SQLiteMemoryRepository.semantic_search`). -/
def repo_semantic_search (env : ProviderEnv) (query : String) (limit : Nat) :
    Except String (List MemorySearchResult) :=
  match env.vector_search query limit with
  | Except.ok results => Except.ok results
  | Except.error e => Except.error ("Semantic search operation failed: " ++ e)

/-- Score boost of `_basic_hybrid_search` for a memory found by both sources:
the first entry of `combined_results` with the given id gets `+0.2` (capped at
`1.0`) and `match_type = "hybrid"`. -/
def boost_first (memory_id : Nat) : List MemorySearchResult → List MemorySearchResult
  | [] => []
  | r :: rest =>
    if r.memory.id = memory_id then
      { r with relevance_score := min 1 (r.relevance_score + 2/10), match_type := "hybrid" } :: rest
    else r :: boost_first memory_id rest

/-- First loop of `_basic_hybrid_search`: add FTS results, deduplicated by id;
returns the combined list and the set of seen ids. -/
def add_fts_results : List MemorySearchResult → List Nat → List MemorySearchResult × List Nat
  | [], seen_ids => ([], seen_ids)
  | r :: rest, seen_ids =>
    if r.memory.id ∈ seen_ids then add_fts_results rest seen_ids
    else
      let step := add_fts_results rest (r.memory.id :: seen_ids)
      ({ r with match_type := "text" } :: step.1, step.2)

/-- Second loop of `_basic_hybrid_search`: add unseen semantic results, boost
duplicates. -/
def add_semantic_results (combined : List MemorySearchResult) (seen_ids : List Nat) :
    List MemorySearchResult → List MemorySearchResult
  | [] => combined
  | r :: rest =>
    if r.memory.id ∈ seen_ids then
      add_semantic_results (boost_first r.memory.id combined) seen_ids rest
    else
      add_semantic_results (combined ++ [{ r with match_type := "semantic" }])
        (r.memory.id :: seen_ids) rest

/-- Fallback search (`SQLiteMemoryRepository._basic_hybrid_search`); any
provider failure is re-raised as `Fallback hybrid search failed`. -/
def basic_hybrid_search (env : ProviderEnv) (query : String) (limit : Nat) :
    Except String (List MemorySearchResult) :=
  match repo_search env query limit with
  | Except.error e => Except.error ("Fallback hybrid search failed: " ++ e)
  | Except.ok fts_results =>
    match repo_semantic_search env query limit with
    | Except.error e => Except.error ("Fallback hybrid search failed: " ++ e)
    | Except.ok semantic_results =>
      let step := add_fts_results fts_results []
      let combined := add_semantic_results step.1 step.2 semantic_results
      Except.ok ((sortDesc (fun r => r.relevance_score) combined).take limit)

/-- Orchestrating search (`SQLiteMemoryRepository.hybrid_search`): run both
providers with `min(limit * 2, 100)`, rank with the enhanced pipeline; on any
exception fall back to `_basic_hybrid_search`. -/
def hybrid_search (env : ProviderEnv) (query : String) (limit : Nat) :
    Except String (List MemorySearchResult) :=
  match repo_search env query (Nat.min (limit * 2) 100) with
  | Except.error _ => basic_hybrid_search env query limit
  | Except.ok fts_results =>
    match repo_semantic_search env query (Nat.min (limit * 2) 100) with
    | Except.error _ => basic_hybrid_search env query limit
    | Except.ok semantic_results =>
      Except.ok (rank_search_results
        [("structured", fts_results), ("semantic", semantic_results)] query limit)


def rA1 : MemorySearchResult := { memory := { id := 1 }, relevance_score := 9/10 }
def rA2 : MemorySearchResult := { memory := { id := 2 }, relevance_score := 8/10 }
def rB1 : MemorySearchResult := { memory := { id := 1 }, relevance_score := 7/10 }


def m5 : MemorySearchResult := { memory := { id := 5, content := "m5" }, relevance_score := 9/10 }
def m7 : MemorySearchResult := { memory := { id := 7, content := "m7" }, relevance_score := 8/10 }
def m9 : MemorySearchResult := { memory := { id := 9, content := "m9" }, relevance_score := 7/10 }



/-- Clamp to the unit interval (spec: final confidence is clamped to
`[0.0, 1.0]`). -/
def clamp01 (q : ℚ) : ℚ := max 0 (min 1 q)

/-- Spec 4.2 signal 1: source-count confidence,
`min(number of contributing sources / total known sources, 1.0)`. -/
def sourceCountConfidenceSpec (sources : List String) : ℚ :=
  min ((sources.length : ℚ) / (SEARCH_SOURCES.length : ℚ)) 1

/-- Spec 4.2 signal 2: score consistency, `1.0` minus the variance of the
source-native scores (clamped to be non-negative); with at most one
contributing source, `1.0` if a score exists, else `0.5`. -/
def scoreConsistencySpec (sources : List String) (original_scores : List (String × ℚ)) : ℚ :=
  if 1 < sources.length then
    let scores := original_scores.map (fun p => p.2)
    let mean := scores.sum / (scores.length : ℚ)
    max 0 (1 - (scores.map (fun s => (s - mean) ^ 2)).sum / (scores.length : ℚ))
  else if original_scores.isEmpty then 1/2 else 1

/-- Spec 4.2 signal 3: rank consistency,
`max(0.1, 1.0 - (average rank - 1) * 0.1)`. -/
def rankConsistencySpec (ranks : List (String × Nat)) : ℚ :=
  if ranks.isEmpty then 1
  else
    max (1/10)
      (1 - ((ranks.map (fun p => (p.2 : ℚ))).sum / (ranks.length : ℚ) - 1) * (1/10))

/-- Spec 4.2 signal 4: the average of the contributing sources' configured
reliabilities. -/
def avgReliabilitySpec (sources : List String) : ℚ :=
  (sources.map (fun s => (sourceConfig s).reliability)).sum / (sources.length : ℚ)

/-- Spec 4.2: the blended confidence, a clamped weighted sum of the four
signals with weights `0.3, 0.3, 0.2, 0.2`. -/
def confidenceSpec (sources : List String) (original_scores : List (String × ℚ))
    (ranks : List (String × Nat)) : ℚ :=
  clamp01 ((3/10) * sourceCountConfidenceSpec sources +
    (3/10) * scoreConsistencySpec sources original_scores +
    (2/10) * rankConsistencySpec ranks +
    (2/10) * avgReliabilitySpec sources)

/-- Specification-side fusion contribution of one ranked list: a candidate at
1-based rank `r` whose id matches contributes `weight / (k + r)`. -/
def rankContrib (w : ℚ) (k : Nat) (memory_id : Nat) : Nat → List MemorySearchResult → ℚ
  | _, [] => 0
  | rank, r :: rs =>
    (if r.memory.id = memory_id then w / ((k + rank : Nat) : ℚ) else 0) +
      rankContrib w k memory_id (rank + 1) rs

/-- Specification-side fused score (spec section 4.1): the sum over every
source of `weight(source) / (k + r)` at each 1-based rank `r` at which the
record appears in that source (a record absent from a source contributes 0). -/
def rrfSpecScore (source_results : List (String × List MemorySearchResult))
    (source_weights : List (String × ℚ)) (k : Nat) (memory_id : Nat) : ℚ :=
  (source_results.map
    (fun p => rankContrib (resolveWeight source_weights p.1) k memory_id 1 p.2)).sum

/-- Invariants of the fusion accumulator: the score table has distinct keys,
every scored key has stored data, stored data is keyed by its own memory id,
stored source sets are non-empty, and every stored result satisfies `P`. -/
structure FusionInv (P : MemorySearchResult → Prop) (st : FusionState) : Prop where
  nodupKeys : (st.rrf_scores.map Prod.fst).Nodup
  keysSub : ∀ i, i ∈ st.rrf_scores.map Prod.fst → i ∈ st.memory_data.map Prod.fst
  dataKeyed : ∀ i d, alistGet? st.memory_data i = some d → d.result.memory.id = i
  sourcesNonempty : ∀ i d, alistGet? st.memory_data i = some d → d.sources ≠ []
  resultOk : ∀ i d, alistGet? st.memory_data i = some d → P d.result

/-- A provider environment whose structured provider always raises and whose
semantic provider succeeds. -/
def envOneFail : ProviderEnv :=
  { fts_search := fun _ _ => Except.error "db down",
    vector_search := fun _ _ => Except.ok [rB1] }

/-- A provider environment in which both providers always raise. -/
def envAllFail : ProviderEnv :=
  { fts_search := fun _ _ => Except.error "db down",
    vector_search := fun _ _ => Except.error "vector store down" }

/-- Fixed ranking metrics used to build concrete deduplication inputs. -/
def dupMetricsA : RankingMetrics :=
  { rrf_score := 2/61, original_score := 1, confidence := 4/5, source_diversity := 1/3,
    rank_in_source := 1, explanation := "", contributing_sources := ["structured"] }

/-- Metrics of the lower-ranked duplicate. -/
def dupMetricsB : RankingMetrics :=
  { rrf_score := 1/62, original_score := 1, confidence := 4/5, source_diversity := 1/3,
    rank_in_source := 2, explanation := "", contributing_sources := ["structured"] }

/-- Metrics of a third, content-distinct entry. -/
def dupMetricsC : RankingMetrics :=
  { rrf_score := 1/63, original_score := 1, confidence := 4/5, source_diversity := 1/3,
    rank_in_source := 3, explanation := "", contributing_sources := ["structured"] }

/-- Higher-scored duplicate entry (id 1). -/
def dupA : MemorySearchResult × RankingMetrics :=
  ({ memory := { id := 1, content := "same text" }, relevance_score := 2/61 }, dupMetricsA)

/-- Lower-scored duplicate entry (id 2), same leading content as `dupA`. -/
def dupB : MemorySearchResult × RankingMetrics :=
  ({ memory := { id := 2, content := "same text" }, relevance_score := 1/62 }, dupMetricsB)

/-- Content-distinct entry (id 3). -/
def dupC : MemorySearchResult × RankingMetrics :=
  ({ memory := { id := 3, content := "other text" }, relevance_score := 1/63 }, dupMetricsC)

/-- Placeholder pair used as the default of `List.headD` in witnesses. -/
def padRM : MemorySearchResult × RankingMetrics := (rA1, dupMetricsA)

/-- Inserting with `insertDesc` is a permutation of consing. -/
theorem insertDesc_perm {α : Type} (key : α → ℚ) (x : α) (l : List α) :
    List.Perm (insertDesc key x l) (x :: l) := by
  induction l with
  | nil => simp [insertDesc]
  | cons y ys ih =>
    by_cases h : key y < key x
    · simp [insertDesc, h]
    · simp only [insertDesc, if_neg h]
      exact (ih.cons y).trans (List.Perm.swap x y ys)

/-- The stable descending sort is a permutation of its input. -/
theorem sortDesc_perm {α : Type} (key : α → ℚ) (l : List α) :
    List.Perm (sortDesc key l) l := by
  suffices h : ∀ acc : List α,
      List.Perm (l.foldl (fun acc x => insertDesc key x acc) acc) (acc ++ l) by
    simpa using h []
  induction l with
  | nil => simp
  | cons x xs ih =>
    intro acc
    exact (ih (insertDesc key x acc)).trans
      (((insertDesc_perm key x acc).append_right xs).trans List.perm_middle.symm)

/-- Membership is preserved by the descending sort. -/
theorem mem_sortDesc {α : Type} {key : α → ℚ} {x : α} {l : List α} :
    x ∈ sortDesc key l ↔ x ∈ l :=
  (sortDesc_perm key l).mem_iff

/-- Inserting into a descending-sorted list keeps it sorted. -/
theorem insertDesc_sorted {α : Type} {key : α → ℚ} {l : List α}
    (hl : l.Pairwise (fun a b => key b ≤ key a)) (x : α) :
    (insertDesc key x l).Pairwise (fun a b => key b ≤ key a) := by
  induction l with
  | nil => simp [insertDesc]
  | cons y ys ih =>
    rcases List.pairwise_cons.mp hl with ⟨hy, hys⟩
    rw [insertDesc]
    by_cases h : key y < key x
    · rw [if_pos h]
      refine List.pairwise_cons.mpr ⟨?_, hl⟩
      intro z hz
      rcases List.mem_cons.mp hz with hz | hz
      · exact hz ▸ le_of_lt h
      · exact (hy z hz).trans (le_of_lt h)
    · rw [if_neg h]
      refine List.pairwise_cons.mpr ⟨?_, ih hys⟩
      intro z hz
      rcases List.mem_cons.mp ((insertDesc_perm key x ys).mem_iff.mp hz) with hz | hz
      · exact hz ▸ le_of_not_lt h
      · exact hy z hz

/-- The descending sort is sorted: adjacent scores are non-increasing. -/
theorem sortDesc_sorted {α : Type} (key : α → ℚ) (l : List α) :
    (sortDesc key l).Pairwise (fun a b => key b ≤ key a) := by
  suffices h : ∀ acc : List α, acc.Pairwise (fun a b => key b ≤ key a) →
      (l.foldl (fun acc x => insertDesc key x acc) acc).Pairwise (fun a b => key b ≤ key a) by
    exact h [] (by simp)
  induction l with
  | nil => intro acc hacc; simpa using hacc
  | cons x xs ih =>
    intro acc hacc
    exact ih (insertDesc key x acc) (insertDesc_sorted hacc x)

/-- Lookup after a `+=` update: the looked-up total grows by the contribution
exactly at the updated key. -/
theorem alistGet?_alistAddQ {κ : Type} [DecidableEq κ] (l : List (κ × ℚ)) (k : κ) (c : ℚ)
    (j : κ) :
    (alistGet? (alistAddQ l k c) j).getD 0 =
      (alistGet? l j).getD 0 + (if k = j then c else 0) := by
  induction l with
  | nil => by_cases h : k = j <;> simp [alistAddQ, alistGet?, h]
  | cons p rest ih =>
    obtain ⟨k', v⟩ := p
    by_cases h1 : k' = k
    · subst h1
      by_cases h2 : k' = j
      · subst h2; simp [alistAddQ, alistGet?]
      · simp [alistAddQ, alistGet?, h2]
    · by_cases h2 : k' = j
      · subst h2
        have hkj : ¬k = k' := fun h => h1 h.symm
        simp [alistAddQ, alistGet?, h1, hkj]
      · simp [alistAddQ, alistGet?, h1, h2, ih]

/-- Keys after a `+=` update: unchanged for a known key, appended for a new one. -/
theorem keys_alistAddQ {κ : Type} [DecidableEq κ] (l : List (κ × ℚ)) (k : κ) (c : ℚ) :
    (alistAddQ l k c).map Prod.fst =
      if k ∈ l.map Prod.fst then l.map Prod.fst else l.map Prod.fst ++ [k] := by
  induction l with
  | nil => simp [alistAddQ]
  | cons p rest ih =>
    obtain ⟨k', v⟩ := p
    by_cases h : k' = k
    · subst h; simp [alistAddQ]
    · have hke : ¬k = k' := fun e => h e.symm
      by_cases hm : k ∈ rest.map Prod.fst <;>
        simp [alistAddQ, h, ih, hke, hm]

/-- Keys after a `d[k] = v` update: unchanged for a known key, appended for a
new one. -/
theorem keys_alistSet {κ β : Type} [DecidableEq κ] (l : List (κ × β)) (k : κ) (v : β) :
    (alistSet l k v).map Prod.fst =
      if k ∈ l.map Prod.fst then l.map Prod.fst else l.map Prod.fst ++ [k] := by
  induction l with
  | nil => simp [alistSet]
  | cons p rest ih =>
    obtain ⟨k', v'⟩ := p
    by_cases h : k' = k
    · subst h; simp [alistSet]
    · have hke : ¬k = k' := fun e => h e.symm
      by_cases hm : k ∈ rest.map Prod.fst <;>
        simp [alistSet, h, ih, hke, hm]

/-- Key distinctness is preserved by a `+=` update. -/
theorem nodup_keys_alistAddQ {κ : Type} [DecidableEq κ] {l : List (κ × ℚ)} {k : κ} {c : ℚ}
    (h : (l.map Prod.fst).Nodup) : ((alistAddQ l k c).map Prod.fst).Nodup := by
  rw [keys_alistAddQ]
  by_cases hm : k ∈ l.map Prod.fst
  · simpa [hm] using h
  · simp [hm, List.nodup_append, h]

/-- Lookup at the freshly set key. -/
theorem alistGet?_alistSet_self {κ β : Type} [DecidableEq κ] (l : List (κ × β)) (k : κ)
    (v : β) : alistGet? (alistSet l k v) k = some v := by
  induction l with
  | nil => simp [alistSet, alistGet?]
  | cons p rest ih =>
    obtain ⟨k', v'⟩ := p
    by_cases h : k' = k
    · subst h; simp [alistSet, alistGet?]
    · simp [alistSet, alistGet?, h, ih]

/-- Lookup at other keys is unchanged by a set. -/
theorem alistGet?_alistSet_ne {κ β : Type} [DecidableEq κ] (l : List (κ × β)) {k j : κ}
    (v : β) (h : k ≠ j) : alistGet? (alistSet l k v) j = alistGet? l j := by
  induction l with
  | nil => simp [alistSet, alistGet?, h]
  | cons p rest ih =>
    obtain ⟨k', v'⟩ := p
    by_cases h1 : k' = k
    · subst h1; simp [alistSet, alistGet?, h]
    · simp [alistSet, alistGet?, h1, ih]

/-- Successful lookups come from actual bindings. -/
theorem alistGet?_mem {κ β : Type} [DecidableEq κ] {l : List (κ × β)} {j : κ} {v : β}
    (h : alistGet? l j = some v) : (j, v) ∈ l := by
  induction l with
  | nil => simp [alistGet?] at h
  | cons p rest ih =>
    obtain ⟨k', v'⟩ := p
    by_cases h1 : k' = j
    · subst h1
      simp [alistGet?] at h
      subst h
      exact List.mem_cons_self _ _
    · simp only [alistGet?, if_neg h1] at h
      exact List.mem_cons_of_mem _ (ih h)

/-- A lookup succeeds exactly on the stored keys. -/
theorem alistGet?_isSome_iff {κ β : Type} [DecidableEq κ] (l : List (κ × β)) (j : κ) :
    (alistGet? l j).isSome ↔ j ∈ l.map Prod.fst := by
  induction l with
  | nil => simp [alistGet?]
  | cons p rest ih =>
    obtain ⟨k', v'⟩ := p
    by_cases h1 : k' = j
    · subst h1; simp [alistGet?]
    · have : ¬j = k' := fun e => h1 e.symm
      simp [alistGet?, h1, ih, this]

/-- With distinct keys, every stored binding is found by lookup. -/
theorem alistGet?_of_mem_nodup {κ β : Type} [DecidableEq κ] {l : List (κ × β)} {j : κ}
    {v : β} (hnd : (l.map Prod.fst).Nodup) (h : (j, v) ∈ l) : alistGet? l j = some v := by
  induction l with
  | nil => simp at h
  | cons p rest ih =>
    obtain ⟨k', v'⟩ := p
    rcases List.mem_cons.mp h with h1 | h1
    · rw [Prod.mk.injEq] at h1
      obtain ⟨e1, e2⟩ := h1
      subst e1; subst e2
      simp [alistGet?]
    · simp only [List.map_cons, List.nodup_cons] at hnd
      have hk : k' ≠ j := by
        intro e
        subst e
        exact hnd.1 (List.mem_map_of_mem Prod.fst h1)
      simp only [alistGet?, if_neg hk]
      exact ih hnd.2 h1

/-- Score accounting of the inner fusion loop. -/
theorem processSource_score (s : String) (w : ℚ) (k : Nat) (memory_id : Nat) :
    ∀ (L : List MemorySearchResult) (rank : Nat) (st : FusionState),
      (alistGet? (processSource s w k st rank L).rrf_scores memory_id).getD 0 =
        (alistGet? st.rrf_scores memory_id).getD 0 + rankContrib w k memory_id rank L := by
  intro L
  induction L with
  | nil => intro rank st; simp [processSource, rankContrib]
  | cons r rs ih =>
    intro rank st
    show (alistGet? (processSource s w k
        (processResult s w k st rank r) (rank + 1) rs).rrf_scores memory_id).getD 0 = _
    rw [ih (rank + 1) (processResult s w k st rank r)]
    have h2 : (processResult s w k st rank r).rrf_scores =
        alistAddQ st.rrf_scores r.memory.id (w / ((k + rank : Nat) : ℚ)) := rfl
    rw [h2, alistGet?_alistAddQ, rankContrib]
    ring

/-- Score accounting of the outer fusion loop. -/
theorem processSources_score (weights : List (String × ℚ)) (k : Nat) (memory_id : Nat) :
    ∀ (rest : List (String × List MemorySearchResult)) (st : FusionState),
      (alistGet? (processSources weights k st rest).rrf_scores memory_id).getD 0 =
        (alistGet? st.rrf_scores memory_id).getD 0 +
          (rest.map (fun p => rankContrib (resolveWeight weights p.1) k memory_id 1 p.2)).sum := by
  intro rest
  induction rest with
  | nil => intro st; simp [processSources]
  | cons p ps ih =>
    intro st
    show (alistGet? (processSources weights k
        (processSource p.1 (resolveWeight weights p.1) k st 1 p.2) ps).rrf_scores
        memory_id).getD 0 = _
    rw [ih, processSource_score]
    simp only [List.map_cons, List.sum_cons]
    ring

/-- The accumulated score of every memory id equals the specification-side
RRF score. -/
theorem fusion_state_score (sr : List (String × List MemorySearchResult))
    (weights : List (String × ℚ)) (k : Nat) (memory_id : Nat) :
    (alistGet? (processSources weights k ⟨[], []⟩ sr).rrf_scores memory_id).getD 0 =
      rrfSpecScore sr weights k memory_id := by
  rw [processSources_score]
  simp [alistGet?, rrfSpecScore]

/-- Appending to the source set never yields the empty set. -/
theorem addSource_ne_nil (sources : List String) (s : String) : addSource sources s ≠ [] := by
  unfold addSource
  by_cases h : s ∈ sources
  · simp only [if_pos h]
    intro he
    subst he
    simp at h
  · simp [if_neg h]

/-- One step of the inner fusion loop preserves the invariants. -/
theorem processResult_inv {P : MemorySearchResult → Prop} {st : FusionState}
    (s : String) (w : ℚ) (k : Nat) (rank : Nat) {r : MemorySearchResult}
    (hP : P r) (h : FusionInv P st) : FusionInv P (processResult s w k st rank r) := by
  set data0 := (alistGet? st.memory_data r.memory.id).getD
    { result := r, original_scores := [], ranks_in_sources := [], sources := [] } with hdata0
  have hres : data0.result = r ∨
      alistGet? st.memory_data r.memory.id = some data0 := by
    rcases hd : alistGet? st.memory_data r.memory.id with _ | d
    · left; rw [hdata0, hd]; rfl
    · right; rw [hdata0, hd]; rfl
  constructor
  · exact nodup_keys_alistAddQ h.nodupKeys
  · intro i hi
    rw [show (processResult s w k st rank r).rrf_scores =
        alistAddQ st.rrf_scores r.memory.id (w / ((k + rank : Nat) : ℚ)) from rfl,
      keys_alistAddQ] at hi
    rw [show (processResult s w k st rank r).memory_data =
        alistSet st.memory_data r.memory.id _ from rfl, keys_alistSet]
    have hsup : ∀ j, j ∈ st.memory_data.map Prod.fst →
        j ∈ (if r.memory.id ∈ st.memory_data.map Prod.fst then st.memory_data.map Prod.fst
          else st.memory_data.map Prod.fst ++ [r.memory.id]) := by
      intro j hj
      by_cases hm : r.memory.id ∈ st.memory_data.map Prod.fst <;> simp [hm, hj]
    have hrid : r.memory.id ∈ (if r.memory.id ∈ st.memory_data.map Prod.fst then
        st.memory_data.map Prod.fst else st.memory_data.map Prod.fst ++ [r.memory.id]) := by
      by_cases hm : r.memory.id ∈ st.memory_data.map Prod.fst <;> simp [hm]
    by_cases hm : r.memory.id ∈ st.rrf_scores.map Prod.fst
    · rw [if_pos hm] at hi
      exact hsup i (h.keysSub i hi)
    · rw [if_neg hm] at hi
      rcases List.mem_append.mp hi with hi | hi
      · exact hsup i (h.keysSub i hi)
      · simp only [List.mem_singleton] at hi
        subst hi
        exact hrid
  · intro i d hd
    by_cases hik : r.memory.id = i
    · subst hik
      rw [show (processResult s w k st rank r).memory_data =
          alistSet st.memory_data r.memory.id _ from rfl,
        alistGet?_alistSet_self] at hd
      have : d.result = data0.result := by
        cases hd.symm
        rfl
      rw [this]
      rcases hres with h1 | h1
      · rw [h1]
      · exact h.dataKeyed _ _ h1
    · rw [show (processResult s w k st rank r).memory_data =
          alistSet st.memory_data r.memory.id _ from rfl,
        alistGet?_alistSet_ne _ _ hik] at hd
      exact h.dataKeyed _ _ hd
  · intro i d hd
    by_cases hik : r.memory.id = i
    · subst hik
      rw [show (processResult s w k st rank r).memory_data =
          alistSet st.memory_data r.memory.id _ from rfl,
        alistGet?_alistSet_self] at hd
      have : d.sources = addSource data0.sources s := by
        cases hd.symm
        rfl
      rw [this]
      exact addSource_ne_nil _ _
    · rw [show (processResult s w k st rank r).memory_data =
          alistSet st.memory_data r.memory.id _ from rfl,
        alistGet?_alistSet_ne _ _ hik] at hd
      exact h.sourcesNonempty _ _ hd
  · intro i d hd
    by_cases hik : r.memory.id = i
    · subst hik
      rw [show (processResult s w k st rank r).memory_data =
          alistSet st.memory_data r.memory.id _ from rfl,
        alistGet?_alistSet_self] at hd
      have : d.result = data0.result := by
        cases hd.symm
        rfl
      rw [this]
      rcases hres with h1 | h1
      · rw [h1]; exact hP
      · exact h.resultOk _ _ h1
    · rw [show (processResult s w k st rank r).memory_data =
          alistSet st.memory_data r.memory.id _ from rfl,
        alistGet?_alistSet_ne _ _ hik] at hd
      exact h.resultOk _ _ hd

/-- The inner fusion loop preserves the invariants. -/
theorem processSource_inv {P : MemorySearchResult → Prop} (s : String) (w : ℚ) (k : Nat) :
    ∀ (L : List MemorySearchResult) (rank : Nat) (st : FusionState),
      (∀ r ∈ L, P r) → FusionInv P st → FusionInv P (processSource s w k st rank L) := by
  intro L
  induction L with
  | nil => intro rank st _ h; exact h
  | cons r rs ih =>
    intro rank st hL h
    exact ih (rank + 1) (processResult s w k st rank r)
      (fun x hx => hL x (List.mem_cons_of_mem _ hx))
      (processResult_inv s w k rank (hL r (List.mem_cons_self _ _)) h)

/-- The outer fusion loop preserves the invariants. -/
theorem processSources_inv {P : MemorySearchResult → Prop} (weights : List (String × ℚ))
    (k : Nat) :
    ∀ (rest : List (String × List MemorySearchResult)) (st : FusionState),
      (∀ p ∈ rest, ∀ r ∈ p.2, P r) → FusionInv P st →
      FusionInv P (processSources weights k st rest) := by
  intro rest
  induction rest with
  | nil => intro st _ h; exact h
  | cons p ps ih =>
    intro st hrest h
    exact ih (processSource p.1 (resolveWeight weights p.1) k st 1 p.2)
      (fun q hq => hrest q (List.mem_cons_of_mem _ hq))
      (processSource_inv _ _ _ _ _ _ (hrest p (List.mem_cons_self _ _)) h)

/-- The empty accumulator satisfies the invariants. -/
theorem initial_inv (P : MemorySearchResult → Prop) : FusionInv P ⟨[], []⟩ := by
  constructor <;> simp [alistGet?]

/-- The fused state of an arbitrary input satisfies the invariants, with every
stored result originating from some source list. -/
theorem fusion_inv (sr : List (String × List MemorySearchResult))
    (weights : List (String × ℚ)) (k : Nat) :
    FusionInv (fun r0 => ∃ p, p ∈ sr ∧ r0 ∈ p.2) (processSources weights k ⟨[], []⟩ sr) :=
  processSources_inv weights k sr ⟨[], []⟩
    (fun p hp r hr => ⟨p, hp, hr⟩) (initial_inv _)

/-- Inserting a string is a permutation of consing. -/
theorem insertStr_perm (x : String) (l : List String) :
    List.Perm (insertStr x l) (x :: l) := by
  induction l with
  | nil => simp [insertStr]
  | cons y ys ih =>
    by_cases h : charListLt x.data y.data
    · simp [insertStr, h]
    · simp only [insertStr, if_neg h]
      exact (ih.cons y).trans (List.Perm.swap x y ys)

/-- Sorting strings preserves membership. -/
theorem mem_sortStrings {x : String} {l : List String} : x ∈ sortStrings l ↔ x ∈ l := by
  suffices h : ∀ acc : List String,
      List.Perm (l.foldl (fun acc x => insertStr x acc) acc) (acc ++ l) by
    exact (h []).mem_iff.trans (by simp)
  induction l with
  | nil => simp
  | cons y ys ih =>
    intro acc
    exact (ih (insertStr y acc)).trans
      (((insertStr_perm y acc).append_right ys).trans List.perm_middle.symm)

/-- Shape of one emitted fusion entry. -/
theorem mkFusedEntry_eq_some {n : Nat} {md : List (Nat × MemoryData)} {p : Nat × ℚ}
    {rm : MemorySearchResult × RankingMetrics} (h : mkFusedEntry n md p = some rm) :
    ∃ d, alistGet? md p.1 = some d ∧
      rm.1 = { d.result with
               relevance_score := p.2,
               match_type :=
                 if 1 < d.sources.length then "rrf_fused"
                 else "rrf_" ++ d.sources.headD "" } ∧
      rm.2.rrf_score = p.2 ∧
      rm.2.contributing_sources = sortStrings d.sources ∧
      rm.2.confidence = calculate_confidence d.sources d.original_scores d.ranks_in_sources := by
  rcases hd : alistGet? md p.1 with _ | d
  · rw [mkFusedEntry, hd] at h
    simp at h
  · rw [mkFusedEntry, hd] at h
    simp only [Option.map_some'] at h
    have h' := Option.some.inj h
    refine ⟨d, rfl, ?_, ?_, ?_, ?_⟩ <;> rw [show rm = _ from h'.symm]

/-- Decomposition of fusion output membership: every emitted pair comes from a
scored id with stored data. -/
theorem mem_fusion_elim {sr : List (String × List MemorySearchResult)}
    {w : List (String × ℚ)} {k? : Option Nat} {rm : MemorySearchResult × RankingMetrics}
    (h : rm ∈ reciprocal_rank_fusion sr w k?) :
    ∃ p : Nat × ℚ,
      p ∈ (processSources w (effectiveK k?) ⟨[], []⟩ sr).rrf_scores ∧
      mkFusedEntry sr.length (processSources w (effectiveK k?) ⟨[], []⟩ sr).memory_data p
        = some rm := by
  rw [reciprocal_rank_fusion] at h
  rcases List.mem_filterMap.mp h with ⟨p, hp, hsome⟩
  exact ⟨p, mem_sortDesc.mp hp, hsome⟩

/-- Central facts about every emitted fusion pair: its metrics score is the
specification RRF score of its memory id, and the result object's
`relevance_score` was overwritten with exactly that score. -/
theorem fusion_entry_facts {sr : List (String × List MemorySearchResult)}
    {w : List (String × ℚ)} {k? : Option Nat} {rm : MemorySearchResult × RankingMetrics}
    (h : rm ∈ reciprocal_rank_fusion sr w k?) :
    rm.2.rrf_score = rrfSpecScore sr w (effectiveK k?) rm.1.memory.id ∧
    rm.1.relevance_score = rm.2.rrf_score := by
  obtain ⟨p, hp, hsome⟩ := mem_fusion_elim h
  obtain ⟨d, hd, hres, hscore, hcs, hconf⟩ := mkFusedEntry_eq_some hsome
  have hinv := fusion_inv sr w (effectiveK k?)
  have hid : rm.1.memory.id = p.1 := by
    rw [hres]
    exact hinv.dataKeyed _ _ hd
  have hlookup : alistGet? (processSources w (effectiveK k?) ⟨[], []⟩ sr).rrf_scores p.1
      = some p.2 := alistGet?_of_mem_nodup hinv.nodupKeys hp
  constructor
  · rw [hscore, hid, ← fusion_state_score sr w (effectiveK k?) p.1, hlookup]
    rfl
  · rw [hres, hscore]

/-- Filtering a pairwise list through an option-valued map preserves
pairwise-ness of any compatible relation. -/
theorem pairwise_filterMap {α β : Type} {R : α → α → Prop} {S : β → β → Prop}
    (f : α → Option β)
    (H : ∀ a a' b b', R a a' → f a = some b → f a' = some b' → S b b') :
    ∀ {l : List α}, l.Pairwise R → (l.filterMap f).Pairwise S := by
  intro l
  induction l with
  | nil => intro _; simp
  | cons x xs ih =>
    intro hl
    rcases List.pairwise_cons.mp hl with ⟨hx, hxs⟩
    rcases hfx : f x with _ | b
    · rw [List.filterMap_cons, hfx]
      exact ih hxs
    · rw [List.filterMap_cons, hfx]
      refine List.pairwise_cons.mpr ⟨?_, ih hxs⟩
      intro b' hb'
      rcases List.mem_filterMap.mp hb' with ⟨a', ha', hfa'⟩
      exact H x a' b b' (hx a' ha') hfx hfa'

/-- Fusion output is sorted descending by the fused score, which is also the
overwritten `relevance_score` of each emitted result. -/
theorem fusion_pairwise (sr : List (String × List MemorySearchResult))
    (w : List (String × ℚ)) (k? : Option Nat) :
    (reciprocal_rank_fusion sr w k?).Pairwise
      (fun a b => b.1.relevance_score ≤ a.1.relevance_score) := by
  rw [reciprocal_rank_fusion]
  refine pairwise_filterMap _ ?_ (sortDesc_sorted (fun p => p.2) _)
  intro a a' b b' hR ha ha'
  obtain ⟨d, _, hres, _, _, _⟩ := mkFusedEntry_eq_some ha
  obtain ⟨d', _, hres', _, _, _⟩ := mkFusedEntry_eq_some ha'
  have h1 : b.1.relevance_score = a.2 := by rw [hres]
  have h2 : b'.1.relevance_score = a'.2 := by rw [hres']
  rw [h1, h2]
  exact hR

/-- The threshold filter is list filtering on the fused score. -/
theorem apply_threshold_filter_eq_filter (l : List (MemorySearchResult × RankingMetrics))
    (t : ℚ) :
    apply_threshold_filter l t = l.filter (fun rm => decide (t ≤ rm.2.rrf_score)) := by
  induction l with
  | nil => rfl
  | cons rm rest ih =>
    by_cases h : t ≤ rm.2.rrf_score <;>
      simp [apply_threshold_filter, List.filter_cons, h, ih]

/-- The threshold filter output is a sublist (keeps relative order). -/
theorem apply_threshold_filter_sublist (l : List (MemorySearchResult × RankingMetrics))
    (t : ℚ) : (apply_threshold_filter l t).Sublist l := by
  rw [apply_threshold_filter_eq_filter]
  exact List.filter_sublist l

/-- Membership in the threshold filter output. -/
theorem mem_apply_threshold_filter {l : List (MemorySearchResult × RankingMetrics)} {t : ℚ}
    {rm : MemorySearchResult × RankingMetrics} :
    rm ∈ apply_threshold_filter l t ↔ rm ∈ l ∧ t ≤ rm.2.rrf_score := by
  rw [apply_threshold_filter_eq_filter]
  simp [List.mem_filter]

/-- Ids of the emitted fusion entries form a sublist of the scored keys. -/
theorem emitted_ids_sublist (n : Nat) (md : List (Nat × MemoryData))
    (hkeyed : ∀ i d, alistGet? md i = some d → d.result.memory.id = i) :
    ∀ (l : List (Nat × ℚ)),
      ((l.filterMap (mkFusedEntry n md)).map (fun rm => rm.1.memory.id)).Sublist
        (l.map Prod.fst) := by
  intro l
  induction l with
  | nil => simp
  | cons p ps ih =>
    rcases hf : mkFusedEntry n md p with _ | rm
    · rw [List.filterMap_cons, hf]
      simp only [List.map_cons]
      exact ih.trans (List.sublist_cons_self _ _)
    · rw [List.filterMap_cons, hf]
      obtain ⟨d, hd, hres, _, _, _⟩ := mkFusedEntry_eq_some hf
      have hid : rm.1.memory.id = p.1 := by
        rw [hres]
        exact hkeyed _ _ hd
      simp only [List.map_cons, hid]
      exact ih.cons₂ p.1

/-- Ids of the fusion output carry no duplicates. -/
theorem fusion_ids_nodup (sr : List (String × List MemorySearchResult))
    (w : List (String × ℚ)) (k? : Option Nat) :
    ((reciprocal_rank_fusion sr w k?).map (fun rm => rm.1.memory.id)).Nodup := by
  rw [reciprocal_rank_fusion]
  have hinv := fusion_inv sr w (effectiveK k?)
  have hperm : List.Perm
      ((sortDesc (fun p => p.2)
        (processSources w (effectiveK k?) ⟨[], []⟩ sr).rrf_scores).map Prod.fst)
      ((processSources w (effectiveK k?) ⟨[], []⟩ sr).rrf_scores.map Prod.fst) :=
    (sortDesc_perm _ _).map Prod.fst
  have hnodup := hperm.nodup_iff.mpr hinv.nodupKeys
  exact (emitted_ids_sublist _ _ hinv.dataKeyed _).nodup hnodup

/-- The diversity penalty multiplier is always a power of `0.95`. -/
theorem diversityBonus_pow (contributing_sources : List String)
    (counts : List (String × Nat)) (m : Nat) :
    ∃ c : Nat, diversityBonus contributing_sources counts m = (95/100 : ℚ) ^ c := by
  suffices h : ∀ (ss : List String) (c0 : Nat), ∃ c : Nat,
      ss.foldl
        (fun bonus s =>
          if m / 3 < (alistGet? counts s).getD 0 then bonus * (95/100) else bonus)
        ((95/100 : ℚ) ^ c0) = (95/100 : ℚ) ^ c by
    obtain ⟨c, hc⟩ := h contributing_sources 0
    exact ⟨c, by rw [diversityBonus, ← hc, pow_zero]⟩
  intro ss
  induction ss with
  | nil => intro c0; exact ⟨c0, rfl⟩
  | cons s rest ih =>
    intro c0
    by_cases hs : m / 3 < (alistGet? counts s).getD 0
    · obtain ⟨c, hc⟩ := ih (c0 + 1)
      exact ⟨c, by rw [List.foldl_cons, if_pos hs, ← pow_succ, hc]⟩
    · obtain ⟨c, hc⟩ := ih c0
      exact ⟨c, by rw [List.foldl_cons, if_neg hs, hc]⟩

/-- Every entry of the diversify walk output either was already accepted or is
an input entry whose score was multiplied by some power of the `0.95` penalty. -/
theorem diversifyWalk_mem {m : Nat} :
    ∀ (input : List (MemorySearchResult × RankingMetrics)) (seen : List String)
      (counts : List (String × Nat)) (acc : List (MemorySearchResult × RankingMetrics))
      (rm' : MemorySearchResult × RankingMetrics),
      rm' ∈ diversifyWalk m input seen counts acc →
      rm' ∈ acc ∨ ∃ rm, rm ∈ input ∧ rm'.2 = rm.2 ∧ ∃ c : Nat,
        rm'.1 = { rm.1 with relevance_score := rm.1.relevance_score * (95/100 : ℚ) ^ c } := by
  intro input
  induction input with
  | nil =>
    intro seen counts acc rm' h
    rw [diversifyWalk] at h
    exact Or.inl (List.mem_reverse.mp h)
  | cons rm rest ih =>
    intro seen counts acc rm' h
    rw [diversifyWalk] at h
    by_cases hsig : contentSignature rm.1.memory.content ∈ seen
    · rw [if_pos hsig] at h
      rcases ih _ _ _ _ h with h1 | ⟨rm0, hrm0, he⟩
      · exact Or.inl h1
      · exact Or.inr ⟨rm0, List.mem_cons_of_mem _ hrm0, he⟩
    · rw [if_neg hsig] at h
      obtain ⟨c1, hc1⟩ := diversityBonus_pow rm.2.contributing_sources counts m
      have hstep : ∀ rm1, rm1 ∈
          ({ rm.1 with relevance_score :=
              rm.1.relevance_score * diversityBonus rm.2.contributing_sources counts m },
            rm.2) :: acc →
          rm1 ∈ acc ∨ ∃ rm0, rm0 ∈ rm :: rest ∧ rm1.2 = rm0.2 ∧ ∃ c : Nat,
            rm1.1 = { rm0.1 with
                      relevance_score := rm0.1.relevance_score * (95/100 : ℚ) ^ c } := by
        intro rm1 h1
        rcases List.mem_cons.mp h1 with h1 | h1
        · refine Or.inr ⟨rm, List.mem_cons_self _ _, ?_, ?_⟩
          · rw [h1]
          · exact ⟨c1, by rw [h1, hc1]⟩
        · exact Or.inl h1
      by_cases hfull : m ≤
          (({ rm.1 with relevance_score :=
              rm.1.relevance_score * diversityBonus rm.2.contributing_sources counts m },
            rm.2) :: acc).length
      · rw [if_pos hfull] at h
        exact (hstep rm' (List.mem_reverse.mp h)).imp id
          (fun ⟨rm0, h0, he⟩ => ⟨rm0, h0, he⟩)
      · rw [if_neg hfull] at h
        rcases ih _ _ _ _ h with h1 | ⟨rm0, hrm0, he⟩
        · exact (hstep rm' h1).imp id (fun ⟨rm0, h0, he⟩ => ⟨rm0, h0, he⟩)
        · exact Or.inr ⟨rm0, List.mem_cons_of_mem _ hrm0, he⟩

/-- Ids of the diversify walk output form a sublist of the accepted-so-far ids
followed by the input ids. -/
theorem diversifyWalk_ids_sublist {m : Nat} :
    ∀ (input : List (MemorySearchResult × RankingMetrics)) (seen : List String)
      (counts : List (String × Nat)) (acc : List (MemorySearchResult × RankingMetrics)),
      ((diversifyWalk m input seen counts acc).map (fun rm => rm.1.memory.id)).Sublist
        ((acc.reverse.map (fun rm => rm.1.memory.id)) ++
          (input.map (fun rm => rm.1.memory.id))) := by
  intro input
  induction input with
  | nil =>
    intro seen counts acc
    rw [diversifyWalk]
    simp
  | cons rm rest ih =>
    intro seen counts acc
    rw [diversifyWalk]
    by_cases hsig : contentSignature rm.1.memory.content ∈ seen
    · rw [if_pos hsig]
      refine (ih seen counts acc).trans ?_
      simp only [List.map_cons]
      exact (List.sublist_cons_self _ _).append_left _
    · rw [if_neg hsig]
      set rm1 : MemorySearchResult × RankingMetrics :=
        ({ rm.1 with relevance_score :=
            rm.1.relevance_score * diversityBonus rm.2.contributing_sources counts m },
          rm.2) with hrm1
      have hid1 : rm1.1.memory.id = rm.1.memory.id := by rw [hrm1]
      by_cases hfull : m ≤ (rm1 :: acc).length
      · rw [if_pos hfull]
        have : ((rm1 :: acc).reverse.map (fun rm => rm.1.memory.id)) =
            (acc.reverse.map (fun rm => rm.1.memory.id)) ++ [rm.1.memory.id] := by
          simp [hid1]
        rw [this]
        have h1 : ((acc.reverse.map (fun rm => rm.1.memory.id)) ++ [rm.1.memory.id]).Sublist
            ((acc.reverse.map (fun rm => rm.1.memory.id)) ++
              (rm.1.memory.id :: rest.map (fun rm => rm.1.memory.id))) :=
          List.Sublist.append_left
            ((List.singleton_sublist.mpr (List.mem_cons_self _ _))) _
        simp only [List.map_cons]
        exact h1
      · rw [if_neg hfull]
        refine (ih _ _ (rm1 :: acc)).trans ?_
        have : ((rm1 :: acc).reverse.map (fun rm => rm.1.memory.id)) =
            (acc.reverse.map (fun rm => rm.1.memory.id)) ++ [rm.1.memory.id] := by
          simp [hid1]
        rw [this, List.append_assoc]
        refine List.Sublist.append_left ?_ _
        simp only [List.map_cons, List.singleton_append]
        exact List.Sublist.refl _

/-- If every remaining entry carrying the target id has an already-seen
content signature, the walk never emits the target id. -/
theorem diversifyWalk_skips_seen {m tid : Nat} :
    ∀ (input : List (MemorySearchResult × RankingMetrics)) (seen : List String)
      (counts : List (String × Nat)) (acc : List (MemorySearchResult × RankingMetrics)),
      (∀ e ∈ input, e.1.memory.id = tid → contentSignature e.1.memory.content ∈ seen) →
      (∀ e ∈ acc, e.1.memory.id ≠ tid) →
      ∀ rm' ∈ diversifyWalk m input seen counts acc, rm'.1.memory.id ≠ tid := by
  intro input
  induction input with
  | nil =>
    intro seen counts acc _ hacc rm' h
    rw [diversifyWalk] at h
    exact hacc rm' (List.mem_reverse.mp h)
  | cons e rest ih =>
    intro seen counts acc hinput hacc rm' h
    rw [diversifyWalk] at h
    by_cases hsig : contentSignature e.1.memory.content ∈ seen
    · rw [if_pos hsig] at h
      exact ih seen counts acc
        (fun x hx => hinput x (List.mem_cons_of_mem _ hx)) hacc rm' h
    · rw [if_neg hsig] at h
      have hetid : e.1.memory.id ≠ tid := by
        intro he
        exact hsig (hinput e (List.mem_cons_self _ _) he)
      set e1 : MemorySearchResult × RankingMetrics :=
        ({ e.1 with relevance_score :=
            e.1.relevance_score * diversityBonus e.2.contributing_sources counts m },
          e.2) with he1
      have hacc' : ∀ x ∈ e1 :: acc, x.1.memory.id ≠ tid := by
        intro x hx
        rcases List.mem_cons.mp hx with hx | hx
        · rw [hx, he1]
          exact hetid
        · exact hacc x hx
      by_cases hfull : m ≤ (e1 :: acc).length
      · rw [if_pos hfull] at h
        exact hacc' rm' (List.mem_reverse.mp h)
      · rw [if_neg hfull] at h
        exact ih _ _ _
          (fun x hx hid => List.mem_cons_of_mem _ (hinput x (List.mem_cons_of_mem _ hx) hid))
          hacc' rm' h

/-- If an earlier entry (or the seen set) already covers the duplicate's
content signature, the walk never emits the duplicate's id. -/
theorem diversifyWalk_dup_dropped {m tid : Nat} {s : String} :
    ∀ (pre rest : List (MemorySearchResult × RankingMetrics)) (seen : List String)
      (counts : List (String × Nat)) (acc : List (MemorySearchResult × RankingMetrics)),
      (∀ e ∈ pre, e.1.memory.id ≠ tid) →
      (∀ e ∈ rest, e.1.memory.id = tid → contentSignature e.1.memory.content = s) →
      (∀ e ∈ acc, e.1.memory.id ≠ tid) →
      (s ∈ seen ∨ ∃ e, e ∈ pre ∧ contentSignature e.1.memory.content = s) →
      ∀ rm' ∈ diversifyWalk m (pre ++ rest) seen counts acc, rm'.1.memory.id ≠ tid := by
  intro pre
  induction pre with
  | nil =>
    intro rest seen counts acc _ hrest hacc hcover rm' h
    rcases hcover with hseen | ⟨e, he, _⟩
    · exact diversifyWalk_skips_seen rest seen counts acc
        (fun x hx hid => (hrest x hx hid) ▸ hseen) hacc rm' (by simpa using h)
    · simp at he
  | cons e pre' ih =>
    intro rest seen counts acc hpre hrest hacc hcover rm' h
    rw [List.cons_append, diversifyWalk] at h
    by_cases hsig : contentSignature e.1.memory.content ∈ seen
    · rw [if_pos hsig] at h
      refine ih rest seen counts acc
        (fun x hx => hpre x (List.mem_cons_of_mem _ hx)) hrest hacc ?_ rm' h
      rcases hcover with hseen | ⟨w, hw, hws⟩
      · exact Or.inl hseen
      · rcases List.mem_cons.mp hw with hw | hw
        · exact Or.inl (by rw [← hws, hw]; exact hsig)
        · exact Or.inr ⟨w, hw, hws⟩
    · rw [if_neg hsig] at h
      have hetid : e.1.memory.id ≠ tid := hpre e (List.mem_cons_self _ _)
      set e1 : MemorySearchResult × RankingMetrics :=
        ({ e.1 with relevance_score :=
            e.1.relevance_score * diversityBonus e.2.contributing_sources counts m },
          e.2) with he1
      have hacc' : ∀ x ∈ e1 :: acc, x.1.memory.id ≠ tid := by
        intro x hx
        rcases List.mem_cons.mp hx with hx | hx
        · rw [hx, he1]
          exact hetid
        · exact hacc x hx
      by_cases hfull : m ≤ (e1 :: acc).length
      · rw [if_pos hfull] at h
        exact hacc' rm' (List.mem_reverse.mp h)
      · rw [if_neg hfull] at h
        refine ih rest _ _ _
          (fun x hx => hpre x (List.mem_cons_of_mem _ hx)) hrest hacc' ?_ rm' h
        rcases hcover with hseen | ⟨w, hw, hws⟩
        · exact Or.inl (List.mem_cons_of_mem _ hseen)
        · rcases List.mem_cons.mp hw with hw | hw
          · exact Or.inl (by rw [← hws, hw]; exact List.mem_cons_self _ _)
          · exact Or.inr ⟨w, hw, hws⟩

/-- Deduplication output stays sorted by (possibly penalised) score whenever
its input was sorted: either it is the unchanged input or it was re-sorted. -/
theorem dedup_pairwise (results : List (MemorySearchResult × RankingMetrics)) (m : Nat)
    (h : results.Pairwise (fun a b => b.1.relevance_score ≤ a.1.relevance_score)) :
    (deduplicate_and_diversify results m).Pairwise
      (fun a b => b.1.relevance_score ≤ a.1.relevance_score) := by
  rw [deduplicate_and_diversify]
  by_cases hlen : results.length ≤ m
  · rw [if_pos hlen]
    exact h
  · rw [if_neg hlen]
    exact List.Pairwise.sublist (List.take_sublist _ _)
      (sortDesc_sorted (fun rm : MemorySearchResult × RankingMetrics => rm.1.relevance_score) _)

/-- Deduplication emits no duplicate ids when its input has none. -/
theorem dedup_ids_nodup (results : List (MemorySearchResult × RankingMetrics)) (m : Nat)
    (h : (results.map (fun rm => rm.1.memory.id)).Nodup) :
    ((deduplicate_and_diversify results m).map (fun rm => rm.1.memory.id)).Nodup := by
  rw [deduplicate_and_diversify]
  by_cases hlen : results.length ≤ m
  · rw [if_pos hlen]
    exact h
  · rw [if_neg hlen]
    have hwalk : ((diversifyWalk m results [] [] []).map
        (fun rm => rm.1.memory.id)).Sublist (results.map (fun rm => rm.1.memory.id)) := by
      have := @diversifyWalk_ids_sublist m results [] [] []
      simpa using this
    have hsorted : List.Perm
        ((sortDesc (fun rm => rm.1.relevance_score) (diversifyWalk m results [] [] [])).map
          (fun rm => rm.1.memory.id))
        ((diversifyWalk m results [] [] []).map (fun rm => rm.1.memory.id)) :=
      (sortDesc_perm _ _).map _
    exact ((List.take_sublist _ _).map _).nodup (hsorted.nodup_iff.mpr (hwalk.nodup h))

/-- Every deduplication output entry is an input entry whose score was
multiplied by some power of the `0.95` diversity penalty (power `0` when the
stage passed its input through unchanged or no penalty applied). -/
theorem dedup_mem {results : List (MemorySearchResult × RankingMetrics)} {m : Nat}
    {rm' : MemorySearchResult × RankingMetrics}
    (h : rm' ∈ deduplicate_and_diversify results m) :
    ∃ rm, rm ∈ results ∧ rm'.2 = rm.2 ∧ ∃ c : Nat,
      rm'.1 = { rm.1 with relevance_score := rm.1.relevance_score * (95/100 : ℚ) ^ c } := by
  rw [deduplicate_and_diversify] at h
  by_cases hlen : results.length ≤ m
  · rw [if_pos hlen] at h
    refine ⟨rm', h, rfl, 0, ?_⟩
    simp
  · rw [if_neg hlen] at h
    have h1 : rm' ∈ diversifyWalk m results [] [] [] :=
      mem_sortDesc.mp ((List.take_subset _ _) h)
    rcases diversifyWalk_mem results [] [] [] rm' h1 with h2 | h2
    · simp at h2
    · exact h2

/-- C4: record-id uniqueness invariant — for every `source_results` mapping
(any number of sources, any overlap), no two entries in the output of the
ranking pipeline `rank_search_results` (after fusion, threshold filtering and
diversification) share a `record_id`. -/
theorem c4_unique_record_ids (source_results : List (String × List MemorySearchResult))
    (query : String) (max_results : Nat) :
    ((rank_search_results source_results query max_results).map
      (fun r => r.memory.id)).Nodup := by
  have h1 := fusion_ids_nodup source_results (source_weights_for source_results) none
  have h2 : ((apply_threshold_filter
      (reciprocal_rank_fusion source_results (source_weights_for source_results) none)
      (1/100)).map (fun rm => rm.1.memory.id)).Nodup :=
    ((apply_threshold_filter_sublist _ _).map _).nodup h1
  have h3 : ((fused_pipeline source_results max_results).map
      (fun rm => rm.1.memory.id)).Nodup := by
    rw [fused_pipeline]
    exact dedup_ids_nodup _ _ h2
  rw [rank_search_results, List.map_map]
  exact h3

/-- C5: score monotonicity — for every input, the final output list of
`rank_search_results` is sorted descending by the (post-diversity-adjustment)
`relevance_score`: each later entry scores no more than any earlier one. -/
theorem c5_sorted_output (source_results : List (String × List MemorySearchResult))
    (query : String) (max_results : Nat) :
    (rank_search_results source_results query max_results).Pairwise
      (fun a b => b.relevance_score ≤ a.relevance_score) := by
  have h1 := fusion_pairwise source_results (source_weights_for source_results) none
  have h2 := List.Pairwise.sublist (apply_threshold_filter_sublist
    (reciprocal_rank_fusion source_results (source_weights_for source_results) none)
    (1/100)) h1
  have h3 : (fused_pipeline source_results max_results).Pairwise
      (fun a b => b.1.relevance_score ≤ a.1.relevance_score) := by
    rw [fused_pipeline]
    exact dedup_pairwise _ _ h2
  rw [rank_search_results, List.pairwise_map]
  exact h3

/-- C6: threshold filter boundary and order preservation — for every input and
threshold, `apply_threshold_filter` keeps exactly the entries whose fused
score is at least the threshold (a score equal to the threshold is kept),
drops the strictly smaller ones, and the survivors keep their relative order
(the output is a sublist of the input and literally a `List.filter`). -/
theorem c6_threshold_filter (results : List (MemorySearchResult × RankingMetrics))
    (threshold : ℚ) :
    apply_threshold_filter results threshold =
        results.filter (fun rm => decide (threshold ≤ rm.2.rrf_score)) ∧
      (apply_threshold_filter results threshold).Sublist results ∧
      ∀ rm, rm ∈ apply_threshold_filter results threshold ↔
        rm ∈ results ∧ threshold ≤ rm.2.rrf_score :=
  ⟨apply_threshold_filter_eq_filter results threshold,
   apply_threshold_filter_sublist results threshold,
   fun _ => mem_apply_threshold_filter⟩

/-- C1: weighted RRF correctness — for every `source_results` mapping, every
emitted record's fused score equals the specification sum of
`weight(source) / (k + r)` over its occurrences (`rrfSpecScore`), and in the
concrete example (source A returns ids 1, 2; source B returns id 1; both
weights 1, `k = 60`) id 1 scores `2/61`, id 2 scores `1/62`, and id 1 ranks
above id 2. -/
theorem c1_rrf_fusion_score :
    (∀ (source_results : List (String × List MemorySearchResult))
      (source_weights : List (String × ℚ)) (k? : Option Nat)
      (rm : MemorySearchResult × RankingMetrics),
      rm ∈ reciprocal_rank_fusion source_results source_weights k? →
      rm.2.rrf_score =
          rrfSpecScore source_results source_weights (effectiveK k?) rm.1.memory.id ∧
        rm.1.relevance_score = rm.2.rrf_score) ∧
    (reciprocal_rank_fusion [("A", [rA1, rA2]), ("B", [rB1])] [("A", 1), ("B", 1)]
        (some 60)).map (fun rm => (rm.1.memory.id, rm.2.rrf_score)) =
      [(1, 2/61), (2, 1/62)] := by
  constructor
  · intro source_results source_weights k? rm h
    exact fusion_entry_facts h
  · norm_num +decide [reciprocal_rank_fusion, processSources, processSource, processResult,
      effectiveK, resolveWeight, alistGet?, alistAddQ, alistSet, addSource, sortDesc,
      insertDesc, mkFusedEntry, rA1, rA2, rB1, sourceConfig, SEARCH_SOURCES, RRF_K,
      List.filterMap_cons]

/-- C1 witness: on the concrete two-source input, the fused scores column
equals the specification scores column, via the main theorem applied at every
member. -/
theorem c1_rrf_fusion_score_witness :
    (reciprocal_rank_fusion [("A", [rA1, rA2]), ("B", [rB1])] [("A", 1), ("B", 1)]
        (some 60)).map (fun rm => rm.2.rrf_score) =
      (reciprocal_rank_fusion [("A", [rA1, rA2]), ("B", [rB1])] [("A", 1), ("B", 1)]
        (some 60)).map
        (fun rm => rrfSpecScore [("A", [rA1, rA2]), ("B", [rB1])] [("A", 1), ("B", 1)]
          (effectiveK (some 60)) rm.1.memory.id) := by
  apply List.map_congr_left
  intro rm hrm
  exact (c1_rrf_fusion_score.1 _ _ _ rm hrm).1

/-- C3 counterexample: on the end-to-end scenario (structured returns memory 5
then 7, semantic returns 7 then 9, default weights, `k = 60`) the pipeline
emits the order 7, 9, 5 — not the order 7, 5, 9 stated by the spec, because
the default configured weight of the semantic source is 1.2, so memory 9
(semantic, rank 2) outscores memory 5 (structured, rank 1). -/
theorem c3_counterexample :
    (rank_search_results [("structured", [m5, m7]), ("semantic", [m7, m9])]
        "project meeting" 20).map (fun r => r.memory.id) = [7, 9, 5] ∧
      ¬ (rank_search_results [("structured", [m5, m7]), ("semantic", [m7, m9])]
        "project meeting" 20).map (fun r => r.memory.id) = [7, 5, 9] := by
  have h : (rank_search_results [("structured", [m5, m7]), ("semantic", [m7, m9])]
      "project meeting" 20).map (fun r => r.memory.id) = [7, 9, 5] := by
    norm_num +decide [rank_search_results, fused_pipeline, source_weights_for,
      reciprocal_rank_fusion, processSources, processSource, processResult, effectiveK,
      resolveWeight, alistGet?, alistAddQ, alistSet, addSource, sortDesc, insertDesc,
      mkFusedEntry, sourceConfig, SEARCH_SOURCES, RRF_K, List.filterMap_cons,
      apply_threshold_filter, deduplicate_and_diversify, m5, m7, m9]
  exact ⟨h, by rw [h]; decide⟩

/-- C3 amended: with the code's default weights (structured 1.0, semantic 1.2)
and `k = 60`, the scenario yields the order 7, 9, 5 with the exact RRF scores
`1/62 + (1.2)/61`, `(1.2)/62` and `1/61`. -/
theorem c3_end_to_end_amended :
    (rank_search_results [("structured", [m5, m7]), ("semantic", [m7, m9])]
        "project meeting" 20).map (fun r => (r.memory.id, r.relevance_score)) =
      [(7, 1/62 + 6/305), (9, 3/155), (5, 1/61)] := by
  norm_num +decide [rank_search_results, fused_pipeline, source_weights_for,
    reciprocal_rank_fusion, processSources, processSource, processResult, effectiveK,
    resolveWeight, alistGet?, alistAddQ, alistSet, addSource, sortDesc, insertDesc,
    mkFusedEntry, sourceConfig, SEARCH_SOURCES, RRF_K, List.filterMap_cons,
    apply_threshold_filter, deduplicate_and_diversify, m5, m7, m9]

/-- C2 counterexample: with a structured provider that always raises and a
semantic provider that succeeds, `hybrid_search` raises a `RepositoryError`
(the fallback re-queries the failing provider) instead of returning the
semantic source's results; with both providers failing it raises as well,
instead of returning the empty list. -/
theorem c2_counterexample :
    hybrid_search envOneFail "meeting" 5 =
        Except.error "Fallback hybrid search failed: Search operation failed: db down" ∧
      hybrid_search envAllFail "meeting" 5 =
        Except.error "Fallback hybrid search failed: Search operation failed: db down" ∧
      hybrid_search envAllFail "meeting" 5 ≠ Except.ok [] := by
  refine ⟨?_, ?_, ?_⟩ <;>
    simp [hybrid_search, basic_hybrid_search, repo_search, repo_semantic_search,
      envOneFail, envAllFail]

/-- C2 amended: a provider that fails deterministically (at every limit) makes
`hybrid_search` raise a `RepositoryError` labelled `Fallback hybrid search
failed` — the enhanced path's exception triggers `_basic_hybrid_search`, which
re-queries both providers and re-raises — rather than degrading to the
remaining source's results; in particular, when all providers fail the search
raises instead of returning an empty list. -/
theorem c2_provider_failure_raises (env : ProviderEnv) (query : String) (limit : Nat)
    (e : String) :
    ((∀ l, env.fts_search query l = Except.error e) →
      hybrid_search env query limit =
        Except.error ("Fallback hybrid search failed: " ++
          ("Search operation failed: " ++ e))) ∧
    ((∀ l, env.vector_search query l = Except.error e) →
      (∀ l, ∃ rs, env.fts_search query l = Except.ok rs) →
      hybrid_search env query limit =
        Except.error ("Fallback hybrid search failed: " ++
          ("Semantic search operation failed: " ++ e))) := by
  constructor
  · intro hfts
    rw [hybrid_search, repo_search, hfts, basic_hybrid_search, repo_search, hfts]
  · intro hvec hfts
    obtain ⟨rs1, hrs1⟩ := hfts (Nat.min (limit * 2) 100)
    obtain ⟨rs2, hrs2⟩ := hfts limit
    rw [hybrid_search, repo_search, hrs1, repo_semantic_search, hvec,
      basic_hybrid_search, repo_search, hrs2, repo_semantic_search, hvec]

/-- C2 witness: the amended theorem applied to the concrete all-failing
environment. -/
theorem c2_provider_failure_raises_witness :
    hybrid_search envAllFail "standup notes" 7 =
      Except.error ("Fallback hybrid search failed: " ++
        ("Search operation failed: " ++ "db down")) :=
  (c2_provider_failure_raises envAllFail "standup notes" 7 "db down").1 (fun _ => rfl)

/-- Splitting duplicate-freedom of mapped ids around a distinguished entry. -/
theorem nodup_ids_decomp {α : Type} {f : α → Nat} {A B C : List α} {e1 e2 : α}
    (h : ((A ++ e1 :: B ++ e2 :: C).map f).Nodup) :
    (∀ e ∈ A, f e ≠ f e2) ∧ f e1 ≠ f e2 ∧ (∀ e ∈ B, f e ≠ f e2) ∧ ∀ e ∈ C, f e ≠ f e2 := by
  have hre : A ++ e1 :: B ++ e2 :: C = (A ++ e1 :: B) ++ e2 :: C := by
    simp
  rw [hre, List.map_append] at h
  rcases List.nodup_append.mp h with ⟨_, h2, hdisj⟩
  rw [List.map_cons] at h2
  have hc : ∀ e ∈ C, f e ≠ f e2 := by
    intro e he hfe
    rcases List.nodup_cons.mp h2 with ⟨hnot, _⟩
    exact hnot (hfe ▸ List.mem_map_of_mem f he)
  have hx : ∀ e ∈ A ++ e1 :: B, f e ≠ f e2 := by
    intro e he hfe
    have h1 : f e ∈ (A ++ e1 :: B).map f := List.mem_map_of_mem f he
    have h2m : f e ∈ (e2 :: C).map f := by
      simp [hfe]
    exact hdisj h1 h2m
  exact ⟨fun e he => hx e (List.mem_append_left _ he),
    hx e1 (List.mem_append_right _ (List.mem_cons_self _ _)),
    fun e he => hx e (List.mem_append_right _ (List.mem_cons_of_mem _ he)), hc⟩

/-- C7 amended: whenever the deduplication stage actually walks its input
(input longer than `max_results`) and record ids are unique, of two entries
with equal content signatures (first 100 characters, stripped, lowercased)
the later — lower-ranked — one never appears in the output; when the input is
no longer than `max_results` the stage returns its input unchanged, so both
survive. This theorem proves the walking case. -/
theorem c7_content_dedup (A B C : List (MemorySearchResult × RankingMetrics))
    (e1 e2 : MemorySearchResult × RankingMetrics) (max_results : Nat)
    (hlen : max_results < (A ++ e1 :: B ++ e2 :: C).length)
    (hnodup : ((A ++ e1 :: B ++ e2 :: C).map (fun rm => rm.1.memory.id)).Nodup)
    (hsig : contentSignature e1.1.memory.content = contentSignature e2.1.memory.content) :
    e2.1.memory.id ∉
      (deduplicate_and_diversify (A ++ e1 :: B ++ e2 :: C) max_results).map
        (fun rm => rm.1.memory.id) := by
  intro hmem
  rcases List.mem_map.mp hmem with ⟨rm, hrm, hid⟩
  rw [deduplicate_and_diversify, if_neg (not_le.mpr hlen)] at hrm
  have hwalk : rm ∈ diversifyWalk max_results (A ++ e1 :: B ++ e2 :: C) [] [] [] :=
    mem_sortDesc.mp ((List.take_subset _ _) hrm)
  obtain ⟨hA, he1, hB, hC⟩ := nodup_ids_decomp hnodup
  have hre : A ++ e1 :: B ++ e2 :: C = (A ++ [e1]) ++ (B ++ e2 :: C) := by
    simp
  rw [hre] at hwalk
  refine @diversifyWalk_dup_dropped max_results e2.1.memory.id
    (contentSignature e2.1.memory.content) (A ++ [e1]) (B ++ e2 :: C) [] [] []
    ?_ ?_ (by simp) ?_ rm hwalk hid
  · intro e he
    rcases List.mem_append.mp he with he | he
    · exact hA e he
    · rw [List.mem_singleton.mp he]
      exact he1
  · intro e he hid'
    rcases List.mem_append.mp he with he | he
    · exact absurd hid' (hB e he)
    · rcases List.mem_cons.mp he with he | he
      · rw [he]
      · exact absurd hid' (hC e he)
  · exact Or.inr ⟨e1, List.mem_append_right _ (List.mem_singleton_self _), hsig⟩

/-- C7 witness: in a concrete three-entry input that exceeds
`max_results = 2`, the lower-scored duplicate (id 2) does not appear in the
deduplicated output. -/
theorem c7_content_dedup_witness :
    dupB.1.memory.id ∉
      (deduplicate_and_diversify [dupA, dupB, dupC] 2).map (fun rm => rm.1.memory.id) :=
  c7_content_dedup [] [] [dupC] dupA dupB 2 (by decide) (by decide) rfl

/-- C7 counterexample: when the deduplicator's input is not longer than
`max_results` it returns the input unchanged, so two distinct-id entries with
identical content both survive — contradicting the claim that only the
higher-scored one survives whenever such a pair reaches the stage. -/
theorem c7_counterexample :
    deduplicate_and_diversify [dupA, dupB] 20 = [dupA, dupB] ∧
      dupA.1.memory.id ≠ dupB.1.memory.id ∧
      contentSignature dupA.1.memory.content = contentSignature dupB.1.memory.content ∧
      dupB ∈ deduplicate_and_diversify [dupA, dupB] 20 := by
  have h : deduplicate_and_diversify [dupA, dupB] 20 = [dupA, dupB] := by
    rw [deduplicate_and_diversify, if_pos (by decide)]
  exact ⟨h, by decide, rfl,
    h ▸ List.mem_cons_of_mem _ (List.mem_cons_self _ _)⟩

/-- C8: confidence formula and range — the computed confidence always lies in
the unit interval; whenever each contributing source supplied one score (as
fusion guarantees), it equals the clamped spec blend
`0.3 * source-count + 0.3 * score consistency + 0.2 * rank consistency +
0.2 * average reliability`; and with exactly one contributing source the
score-consistency signal is `1.0` when a score exists and `0.5` otherwise. -/
theorem c8_confidence_formula :
    (∀ (sources : List String) (original_scores : List (String × ℚ))
      (ranks : List (String × Nat)),
      0 ≤ calculate_confidence sources original_scores ranks ∧
        calculate_confidence sources original_scores ranks ≤ 1) ∧
    (∀ (sources : List String) (original_scores : List (String × ℚ))
      (ranks : List (String × Nat)),
      sources ≠ [] → original_scores.length = sources.length →
      calculate_confidence sources original_scores ranks =
        confidenceSpec sources original_scores ranks) ∧
    (∀ (sources : List String) (original_scores : List (String × ℚ)),
      sources.length = 1 →
      scoreConsistencySpec sources original_scores =
        if original_scores.isEmpty then 1/2 else 1) := by
  refine ⟨?_, ?_, ?_⟩
  · intro sources original_scores ranks
    constructor
    · exact le_max_left 0 _
    · exact max_le (by norm_num) (min_le_left 1 _)
  · intro sources original_scores ranks hne hlen
    have hlen1 : (1 : ℚ) ≤ (sources.length : ℚ) := by
      have : 1 ≤ sources.length := List.length_pos.mpr hne
      exact_mod_cast this
    have hmax : max ((sources.length : ℚ)) 1 = (sources.length : ℚ) := max_eq_left hlen1
    simp only [calculate_confidence, confidenceSpec, clamp01, sourceCountConfidenceSpec,
      scoreConsistencySpec, rankConsistencySpec, avgReliabilitySpec, List.length_map]
    rw [hlen, hmax]
    congr 1
    congr 1
    ring
  · intro sources original_scores h1
    simp [scoreConsistencySpec, h1]

/-- C8 witness: the formula theorem applied to one concrete single-source
input. -/
theorem c8_confidence_formula_witness :
    calculate_confidence ["structured"] [("structured", 1/2)] [("structured", 1)] =
        confidenceSpec ["structured"] [("structured", 1/2)] [("structured", 1)] ∧
      0 ≤ calculate_confidence ["structured"] [("structured", 1/2)] [("structured", 1)] ∧
      calculate_confidence ["structured"] [("structured", 1/2)] [("structured", 1)] ≤ 1 ∧
      scoreConsistencySpec ["structured"] [("structured", (1 : ℚ)/2)] = 1 := by
  have h1 := c8_confidence_formula.2.1 ["structured"] [("structured", 1/2)]
    [("structured", 1)] (by simp) rfl
  have h2 := c8_confidence_formula.1 ["structured"] [("structured", 1/2)] [("structured", 1)]
  have h3 := c8_confidence_formula.2.2 ["structured"] [("structured", (1 : ℚ)/2)] rfl
  refine ⟨h1, h2.1, h2.2, ?_⟩
  rw [h3]
  norm_num

/-- The default-headed head of a non-empty list is a member. -/
theorem headD_mem_of_ne_nil {α : Type} (l : List α) (d : α) (h : l ≠ []) : l.headD d ∈ l := by
  cases l with
  | nil => exact absurd rfl h
  | cons a t => exact List.mem_cons_self a t

/-- C9: fusion mutates its emitted result objects — every pair emitted by
`reciprocal_rank_fusion` consists of a result object taken from one of the
input source lists whose `relevance_score` field was overwritten with the
fused RRF score and whose `match_type` field was overwritten with an
`rrf_fused` / `rrf_<source>` tag; the source-native score survives only in the
metrics, not on the object. -/
theorem c9_fusion_mutates (source_results : List (String × List MemorySearchResult))
    (source_weights : List (String × ℚ)) (k? : Option Nat)
    (rm : MemorySearchResult × RankingMetrics)
    (h : rm ∈ reciprocal_rank_fusion source_results source_weights k?) :
    ∃ r0, (∃ p, p ∈ source_results ∧ r0 ∈ p.2) ∧
      rm.1 = { r0 with
               relevance_score := rm.2.rrf_score,
               match_type := rm.1.match_type } ∧
      (rm.1.match_type = "rrf_fused" ∨
        ∃ s, s ∈ rm.2.contributing_sources ∧ rm.1.match_type = "rrf_" ++ s) := by
  obtain ⟨p, hp, hsome⟩ := mem_fusion_elim h
  obtain ⟨d, hd, hres, hscore, hcs, _⟩ := mkFusedEntry_eq_some hsome
  have hinv := fusion_inv source_results source_weights (effectiveK k?)
  have hmt : rm.1.match_type =
      if 1 < d.sources.length then "rrf_fused" else "rrf_" ++ d.sources.headD "" := by
    rw [hres]
  refine ⟨d.result, hinv.resultOk _ _ hd, ?_, ?_⟩
  · rw [hres, hscore]
  · by_cases hlen : 1 < d.sources.length
    · exact Or.inl (by rw [hmt, if_pos hlen])
    · refine Or.inr ⟨d.sources.headD "", ?_, by rw [hmt, if_neg hlen]⟩
      rw [hcs]
      exact mem_sortStrings.mpr
        (headD_mem_of_ne_nil _ _ (hinv.sourcesNonempty _ _ hd))

/-- C9 witness: applying the mutation theorem to the head of a concrete
single-source fusion shows its `relevance_score` was overwritten with its
fused score. -/
theorem c9_fusion_mutates_witness :
    ((reciprocal_rank_fusion [("A", [rA1])] [] none).headD padRM).1.relevance_score =
      ((reciprocal_rank_fusion [("A", [rA1])] [] none).headD padRM).2.rrf_score := by
  have hne : reciprocal_rank_fusion [("A", [rA1])] [] none ≠ [] := by
    norm_num +decide [reciprocal_rank_fusion, processSources, processSource, processResult,
      effectiveK, resolveWeight, alistGet?, alistAddQ, alistSet, addSource, sortDesc,
      insertDesc, mkFusedEntry, rA1, sourceConfig, SEARCH_SOURCES, RRF_K,
      List.filterMap_cons]
  obtain ⟨r0, _, hres, _⟩ := c9_fusion_mutates [("A", [rA1])] [] none _
    (headD_mem_of_ne_nil _ padRM hne)
  rw [hres]

/-- C10: the explanation shows the pre-penalty score — each final entry's
attached `ranking_explanation` is built (by `mkRankingExplanation`) from the
fusion-time `metrics.rrf_score`, while the authoritative final
`relevance_score` is that same score times some power of the `0.95` diversity
penalty; whenever a penalty was actually applied (positive power), the score
reported by the explanation differs from the final score. -/
theorem c10_explanation_prepenalty (source_results : List (String × List MemorySearchResult))
    (query : String) (max_results : Nat) (rm : MemorySearchResult × RankingMetrics)
    (h : rm ∈ fused_pipeline source_results max_results) :
    ({ rm.1 with ranking_explanation := mkRankingExplanation rm.2 })
        ∈ rank_search_results source_results query max_results ∧
      ∃ c : Nat, rm.1.relevance_score = rm.2.rrf_score * (95/100 : ℚ) ^ c ∧
        (0 < c → rm.1.relevance_score ≠ rm.2.rrf_score) := by
  refine ⟨?_, ?_⟩
  · rw [rank_search_results]
    exact List.mem_map_of_mem _ h
  · rw [fused_pipeline] at h
    obtain ⟨rm0, hrm0, h2, c, h1⟩ := dedup_mem h
    rcases mem_apply_threshold_filter.mp hrm0 with ⟨hfus, hth⟩
    have hfacts := fusion_entry_facts hfus
    have hrel : rm.1.relevance_score = rm.2.rrf_score * (95/100 : ℚ) ^ c := by
      rw [h1]
      show rm0.1.relevance_score * (95/100 : ℚ) ^ c = rm.2.rrf_score * (95/100 : ℚ) ^ c
      rw [hfacts.2, h2]
    refine ⟨c, hrel, ?_⟩
    intro hc
    have hpos : 0 < rm.2.rrf_score := by
      rw [h2]
      exact lt_of_lt_of_le (by norm_num) hth
    have hlt : rm.2.rrf_score * (95/100 : ℚ) ^ c < rm.2.rrf_score :=
      mul_lt_of_lt_one_right hpos
        (pow_lt_one₀ (by norm_num) (by norm_num) (Nat.pos_iff_ne_zero.mp hc))
    rw [hrel]
    exact ne_of_lt hlt

/-- C10 witness: the theorem applied to the head of the concrete end-to-end
pipeline, showing the explanation-carrying final entry is in the output. -/
theorem c10_explanation_prepenalty_witness :
    ({ ((fused_pipeline [("structured", [m5, m7]), ("semantic", [m7, m9])] 20).headD
        padRM).1 with
       ranking_explanation := mkRankingExplanation
         ((fused_pipeline [("structured", [m5, m7]), ("semantic", [m7, m9])] 20).headD
           padRM).2 }
      ∈ rank_search_results [("structured", [m5, m7]), ("semantic", [m7, m9])]
        "project meeting" 20) := by
  have hne : fused_pipeline [("structured", [m5, m7]), ("semantic", [m7, m9])] 20 ≠ [] := by
    norm_num +decide [fused_pipeline, source_weights_for, reciprocal_rank_fusion,
      processSources, processSource, processResult, effectiveK, resolveWeight, alistGet?,
      alistAddQ, alistSet, addSource, sortDesc, insertDesc, mkFusedEntry, sourceConfig,
      SEARCH_SOURCES, RRF_K, List.filterMap_cons, apply_threshold_filter,
      deduplicate_and_diversify, m5, m7, m9]
  exact (c10_explanation_prepenalty [("structured", [m5, m7]), ("semantic", [m7, m9])]
    "project meeting" 20 _ (headD_mem_of_ne_nil _ padRM hne)).1
